import Mathlib

/-!
Verification development for the bifrost streaming ring-buffer substrate.

The definitions below shallowly embed the parts of the code base that the
checked properties concern: the status and memory-space enumerations and the
array operations are translated directly from the C/C++ sources
(`src/bifrost/memory.h`, `src/array.cpp`, the `bfScale` example extension,
`packet_capture.h`); the ring sequence/span protocol and the packet-capture
loop, whose implementations are not part of the source tree (only their
public headers and callers are), are modelled from the specification and are
marked as such in their doc comments.

Machine integers: the C code uses `long`/`BFsize` values well below overflow
in every property checked here, so sizes and offsets are embedded as
`Nat`/`Int` without modular reduction.  Byte values are embedded as `Nat`.
`float` values are embedded as an abstract type parameter together with an
abstract multiplication, since only the data movement (not the floating-point
arithmetic) is at issue.
-/

/-- Status codes of the C API.  `common.h` is not part of the source tree;
the constructors are the status kinds named by the sources in the tree
(`bfscale.cpp`, `array.cpp`) and by the spec's error taxonomy (§7). -/
inductive BFstatus where
  | BF_STATUS_SUCCESS
  | BF_STATUS_END_OF_DATA
  | BF_STATUS_WOULD_BLOCK
  | BF_STATUS_INVALID_POINTER
  | BF_STATUS_INVALID_HANDLE
  | BF_STATUS_INVALID_ARGUMENT
  | BF_STATUS_INVALID_STATE
  | BF_STATUS_INVALID_SPACE
  | BF_STATUS_INVALID_SHAPE
  | BF_STATUS_INVALID_DTYPE
  | BF_STATUS_UNSUPPORTED
  | BF_STATUS_UNSUPPORTED_SPACE
  | BF_STATUS_UNSUPPORTED_DTYPE
  | BF_STATUS_UNSUPPORTED_STRIDE
  | BF_STATUS_INSUFFICIENT_STORAGE
  | BF_STATUS_INTERNAL_ERROR
deriving DecidableEq

/-- Memory space identifiers, from `src/bifrost/memory.h` lines 48-55:
`BF_SPACE_AUTO = 0`, `BF_SPACE_SYSTEM = 1`, `BF_SPACE_CUDA = 2`,
`BF_SPACE_CUDA_HOST = 3`, `BF_SPACE_CUDA_MANAGED = 4`. -/
inductive BFspace where
  | BF_SPACE_AUTO
  | BF_SPACE_SYSTEM
  | BF_SPACE_CUDA
  | BF_SPACE_CUDA_HOST
  | BF_SPACE_CUDA_MANAGED
deriving DecidableEq

/-- The numeric values assigned by the header. -/
def BFspace.code : BFspace → Nat
  | .BF_SPACE_AUTO => 0
  | .BF_SPACE_SYSTEM => 1
  | .BF_SPACE_CUDA => 2
  | .BF_SPACE_CUDA_HOST => 3
  | .BF_SPACE_CUDA_MANAGED => 4

/-- Modelled from the spec: the allocator is "uniform allocate/free/copy/
memset across four spaces: host, host-pinned, device, device-managed" (§2,
§4.1); `BF_SPACE_AUTO` is the automatic-detection sentinel of the header and
is not one of the four allocation spaces.  `memory.cpp` is not part of the
source tree. -/
def BFspace.isConcrete : BFspace → Bool
  | .BF_SPACE_AUTO => false
  | _ => true

/-- Modelled from the spec: the allocator's bookkeeping, mapping each live
pointer (embedded as a `Nat` address) to the space it was allocated in.
`memory.cpp` is not part of the source tree. -/
structure MemState where
  allocs : List (Nat × BFspace)
deriving DecidableEq

/-- Modelled from the spec: `allocate(size, space) → ptr` (§4.1) dispatches
on one of the four concrete spaces and fails with `unsupported_space`
otherwise.  `memory.cpp` is not part of the source tree. -/
def bfMalloc (st : MemState) (p : Nat) (space : BFspace) : BFstatus × MemState :=
  if space.isConcrete then
    (.BF_STATUS_SUCCESS, ⟨(p, space) :: st.allocs⟩)
  else
    (.BF_STATUS_UNSUPPORTED_SPACE, st)

/-- Modelled from the spec: `free(ptr, space)` (§4.1) releases a live
allocation.  `memory.cpp` is not part of the source tree. -/
def bfFree (st : MemState) (p : Nat) : MemState :=
  ⟨st.allocs.filter (fun q => q.1 ≠ p)⟩

/-- Modelled from the spec: `query_space(ptr) → space` (§4.1), the
`bfGetSpace` of `memory.h`: detects the space a live pointer was allocated
in.  `memory.cpp` is not part of the source tree. -/
def bfGetSpace (st : MemState) (p : Nat) : Option BFspace :=
  (st.allocs.find? (fun q => q.1 == p)).map (fun q => q.2)

/-- Allocator states reachable from an empty allocator by successful
allocations and frees. -/
inductive MemReach : MemState → Prop
  | init : MemReach ⟨[]⟩
  | malloc (st : MemState) (p : Nat) (space : BFspace)
      (h : (bfMalloc st p space).1 = .BF_STATUS_SUCCESS) :
      MemReach st → MemReach (bfMalloc st p space).2
  | free (st : MemState) (p : Nat) :
      MemReach st → MemReach (bfFree st p)

/-- Every live allocation in a reachable allocator state sits in one of the
four concrete spaces. -/
def MemInv (st : MemState) : Prop :=
  ∀ q ∈ st.allocs, (q.2).isConcrete = true

-- Data type encoding from `bifrost/array.h` (part of the source tree):
-- `BF_DTYPE_FLOAT_TYPE = 0x0200`, `BF_DTYPE_F32 = 32 | BF_DTYPE_FLOAT_TYPE`.

def BF_DTYPE_FLOAT_TYPE : Nat := 0x0200

def BF_DTYPE_F32 : Nat := 32 ||| BF_DTYPE_FLOAT_TYPE

/-- The `BFarray` descriptor of `bifrost/array.h`: data pointer (embedded as
the optional flat buffer it addresses, `none` for NULL), memory space, dtype
encoding, number of dimensions, shapes (elements) and strides (bytes).  The
element type `F` abstracts the stored scalars (`float` in `bfscale.cpp`). -/
structure BFarray (F : Type) where
  data : Option (List F)
  space : BFspace
  dtype : Nat
  ndim : Nat
  shape : List Int
  strides : List Int
deriving DecidableEq

/-- `get_total_elements` from `bfscale.cpp`: the product of the first `ndim`
shape entries, starting from 1. -/
def get_total_elements {F : Type} (arr : BFarray F) : Int :=
  (arr.shape.take arr.ndim).foldl (fun t s => t * s) 1

/-- The shape comparison loop of `bfScale` (`bfscale.cpp` lines 64-68):
entries `0 ≤ i < ndim` of the two shape arrays must agree. -/
def shapesMatch {F : Type} (a b : BFarray F) : Bool :=
  (List.range a.ndim).all (fun i => a.shape.getD i 0 == b.shape.getD i 0)

/-- `bfScale` from `bfscale.cpp`: validates pointers, dtypes (float32 only),
spaces (system only) and shapes, then writes `out[i] = in[i] * scale` for
each of the `get_total_elements` flat indices.  `fmul` abstracts `float`
multiplication; the returned array is the (possibly updated) output
descriptor. -/
def bfScale {F : Type} (fmul : F → F → F) (inp : BFarray F) (out : BFarray F)
    (scale : F) : BFstatus × BFarray F :=
  match inp.data, out.data with
  | none, _ => (.BF_STATUS_INVALID_POINTER, out)
  | some _, none => (.BF_STATUS_INVALID_POINTER, out)
  | some din, some dout =>
    if inp.dtype ≠ BF_DTYPE_F32 ∨ out.dtype ≠ BF_DTYPE_F32 then
      (.BF_STATUS_UNSUPPORTED_DTYPE, out)
    else if inp.space ≠ .BF_SPACE_SYSTEM ∨ out.space ≠ .BF_SPACE_SYSTEM then
      (.BF_STATUS_UNSUPPORTED_SPACE, out)
    else if inp.ndim ≠ out.ndim then
      (.BF_STATUS_INVALID_SHAPE, out)
    else if ¬ shapesMatch inp out then
      (.BF_STATUS_INVALID_SHAPE, out)
    else
      let n := (get_total_elements inp).toNat
      (.BF_STATUS_SUCCESS,
       { out with data := some ((din.take n).map (fun x => fmul x scale) ++ dout.drop n) })

/-- The stride-filling loop of `bfArrayMalloc` (`array.cpp` lines 102-106)
over the first `ndim` shape entries: `strides[ndim-1] = BF_DTYPE_NBYTE(dtype)`
and `strides[d] = strides[d+1] * shape[d+1]` for `d < ndim-1`.  `nbyte` is
the dtype's byte size `BF_DTYPE_NBYTE(dtype)` (the macro lives in the
`utils.hpp` helper header, which is not part of the source tree). -/
def rowMajorStrides (nbyte : Int) : List Int → List Int
  | [] => []
  | [_] => [nbyte]
  | _ :: s2 :: rest =>
    let tail := rowMajorStrides nbyte (s2 :: rest)
    (tail.headD 0 * s2) :: tail

/-- Flat element count of a shape, used to state density of the layout. -/
def listProd : List Int → Int
  | [] => 1
  | s :: rest => s * listProd rest

/-- `bfArrayMalloc` from `array.cpp` lines 99-109: reads
`(space, dtype, ndim, shape)`, fills in the row-major strides, and requests
`strides[0] * shape[0]` bytes from `bfMalloc` in the array's space.  The
result is the stride-filled descriptor, the requested byte count, and the
space the allocation is requested in. -/
def bfArrayMalloc {F : Type} (nbyte : Int) (a : BFarray F) :
    BFarray F × Int × BFspace :=
  let strides := rowMajorStrides nbyte (a.shape.take a.ndim)
  (({ a with strides := strides } : BFarray F),
   strides.headD 0 * a.shape.headD 0,
   a.space)

/-- Modelled from the spec: one reader cursor of a ring (§3 "Reader cursor",
§4.3-§4.4).  `start` is the byte offset at which the reader joined, `cursor`
its current byte offset (both in the ring's monotonically increasing byte
address space), `acquired` the ghost history of every byte the reader has
acquired and released, in order.  `ring.cpp`/`ring_impl.cpp` are not part of
the source tree. -/
structure RingReader where
  guaranteed : Bool
  start : Nat
  cursor : Nat
  acquired : List Nat
deriving DecidableEq

/-- Modelled from the spec: the state of one ring (§3 "Ring", §4.3-§4.4).
Byte offsets are kept unwrapped (monotonically increasing); `log` is the
committed byte history (so the commit cursor is `log.length`), `pending` the
bytes of the writer's outstanding reserved-but-uncommitted span (so the
reservation cursor is `log.length + pending.length`), `commits` the ghost
history of committed spans in commit order, `writing` the exclusive writer
token of §4.3/§9.  `ring.cpp`/`ring_impl.cpp` are not part of the source
tree. -/
structure RingState where
  capacity : Nat
  log : List Nat
  pending : List Nat
  commits : List (List Nat)
  readers : List RingReader
  writing : Bool
deriving DecidableEq

/-- The writer's reservation cursor: every byte ever reserved. -/
def RingState.reserveHead (st : RingState) : Nat :=
  st.log.length + st.pending.length

/-- The writer's commit cursor: every byte ever committed. -/
def RingState.commitHead (st : RingState) : Nat :=
  st.log.length

/-- A freshly created ring: empty, never written, no readers. -/
def ringInit (cap : Nat) : RingState :=
  ⟨cap, [], [], [], [], false⟩

/-- Modelled from the spec: the guard of `reserve(n)` (§4.3, §4.4).  The
writer may complete a reservation only if the new reservation cursor stays
within `capacity` of every guaranteed reader's cursor ("the writer cannot
advance past min(cursors) − capacity", §2); a `reserve` that would violate
this blocks, i.e. the transition is not enabled.  The first conjunct bounds
the outstanding span by the capacity, per §4.2 (a single reserve never
exceeds `contiguous_span ≤ total_capacity`). -/
def reserveOk (st : RingState) (n : Nat) : Prop :=
  st.pending.length + n ≤ st.capacity ∧
  ∀ r ∈ st.readers, r.guaranteed = true →
    st.log.length + st.pending.length + n ≤ r.cursor + st.capacity

instance (st : RingState) (n : Nat) : Decidable (reserveOk st n) := by
  unfold reserveOk
  infer_instance

/-- A reader acquiring and releasing `n` bytes: its cursor advances and the
acquired bytes are appended to its ghost history (§4.3 `acquire`/`release`). -/
def RingReader.advanceBy (r : RingReader) (n : Nat) (log : List Nat) : RingReader :=
  { r with cursor := r.cursor + n,
           acquired := r.acquired ++ (log.drop r.cursor).take n }

/-- Modelled from the spec: `ring_resize` (§4.2-§4.3, §8).  Resizing is
data-safe only when the ring is empty / has never been written; otherwise it
fails with `INVALID_STATE` and changes nothing.  `ring.cpp` is not part of
the source tree. -/
def ringResize (st : RingState) (c : Nat) : BFstatus × RingState :=
  if st.log.isEmpty then
    (.BF_STATUS_SUCCESS, { st with capacity := c })
  else
    (.BF_STATUS_INVALID_STATE, st)

/-- Modelled from the spec: `open_writing` / `ring_begin_writing` (§4.3,
§9 "Per-ring singleton writer"): transitions the ring to writable and fails
with `INVALID_STATE` if the ring is already open for writing.  `ring.cpp` is
not part of the source tree. -/
def ringBeginWriting (st : RingState) : BFstatus × RingState :=
  if st.writing then
    (.BF_STATUS_INVALID_STATE, st)
  else
    (.BF_STATUS_SUCCESS, { st with writing := true })

/-- Modelled from the spec: non-blocking `read_span_acquire(seq, n,
nonblocking)` for a guaranteed reader (§4.3, §5 "Cancellation / timeout"):
if the `n` bytes past the reader's cursor are not yet committed the call
returns `WOULD_BLOCK` and no data; otherwise it returns exactly the `n`
committed bytes at the cursor.  `ring.cpp` is not part of the source tree. -/
def read_span_acquire (st : RingState) (i : Nat) (n : Nat) :
    Except BFstatus (List Nat) :=
  match st.readers.get? i with
  | none => .error .BF_STATUS_INVALID_HANDLE
  | some r =>
    if r.cursor + n ≤ st.log.length then
      .ok ((st.log.drop r.cursor).take n)
    else
      .error .BF_STATUS_WOULD_BLOCK

/-- Modelled from the spec: the transitions of one ring (§4.3-§4.4).  The
writer's `reserve` carries the bytes it will write into the span; `commit`
publishes the outstanding span; a reader's `acquireRelease` consumes `n`
committed bytes; `openReading` joins a reader at the writer's current commit
cursor (§4.3 tie-breaks, default join point); `resize` is enabled only on an
empty ring.  `ring.cpp`/`ring_impl.cpp` are not part of the source tree. -/
inductive RingStep : RingState → RingState → Prop
  | beginWriting (st : RingState) (hw : st.writing = false) :
      RingStep st { st with writing := true }
  | endWriting (st : RingState) :
      RingStep st { st with writing := false }
  | reserve (st : RingState) (bs : List Nat)
      (hw : st.writing = true)
      (hok : reserveOk st bs.length) :
      RingStep st { st with pending := st.pending ++ bs }
  | commit (st : RingState) (hw : st.writing = true) :
      RingStep st { st with log := st.log ++ st.pending,
                            pending := [],
                            commits := st.commits ++ [st.pending] }
  | openReading (st : RingState) (g : Bool) :
      RingStep st { st with readers :=
        st.readers ++ [⟨g, st.log.length, st.log.length, []⟩] }
  | acquireRelease (st : RingState) (i n : Nat) (h : i < st.readers.length)
      (hn : (st.readers.get ⟨i, h⟩).cursor + n ≤ st.log.length) :
      RingStep st { st with readers :=
        (st.readers.set i ((st.readers.get ⟨i, h⟩).advanceBy n st.log)) }
  | resize (st : RingState) (c : Nat) (hl : st.log = []) (hp : st.pending = []) :
      RingStep st { st with capacity := c }

/-- Ring states reachable from a freshly created ring. -/
inductive RingReach : RingState → Prop
  | init (cap : Nat) : RingReach (ringInit cap)
  | step (st st' : RingState) : RingReach st → RingStep st st' → RingReach st'

/-- The ring invariant: the outstanding span fits in the capacity; the
committed log is exactly the concatenation of the committed spans in commit
order; every reader sits between its start and the commit cursor, its ghost
acquisition history is exactly the committed bytes between its start and its
cursor, and every guaranteed reader is within `capacity` of the reservation
cursor. -/
def RingInv (st : RingState) : Prop :=
  st.pending.length ≤ st.capacity ∧
  st.log = st.commits.flatten ∧
  ∀ r ∈ st.readers,
    r.start ≤ r.cursor ∧
    r.cursor ≤ st.log.length ∧
    r.acquired = (st.log.drop r.start).take (r.cursor - r.start) ∧
    (r.guaranteed = true →
      st.log.length + st.pending.length ≤ r.cursor + st.capacity)

/-- Status codes returned by one iteration of the packet-capture loop, from
`packet_capture.h` lines 118-126 (part of the source tree): exactly seven
values, in the header's declaration order. -/
inductive BFpacketcapture_status where
  | BF_CAPTURE_STARTED
  | BF_CAPTURE_ENDED
  | BF_CAPTURE_CONTINUED
  | BF_CAPTURE_CHANGED
  | BF_CAPTURE_NO_DATA
  | BF_CAPTURE_INTERRUPTED
  | BF_CAPTURE_ERROR
deriving DecidableEq

/-- Modelled from the spec: what one iteration of the capture loop observes
at its byte source (§4.5): a batch of decodable packets (with a flag saying
whether the decoder detected a structural change), a receive timeout, end of
input, a cancellation, or a fatal error.  `packet_capture.cpp` is not part of
the source tree. -/
inductive CaptureInput where
  | packets (change : Bool) (dat : List Nat)
  | timeout
  | eof
  | interrupt
  | fail
deriving DecidableEq

/-- Modelled from the spec: the externally visible ring events one capture
iteration performs, in order (§4.5 step 6): ending the current ring sequence,
invoking the user sequence-change callback for sequence `n`, beginning ring
sequence `n`, and committing a span of payload bytes into sequence `n`.
`packet_capture.cpp` is not part of the source tree. -/
inductive CaptureEvent where
  | seqEnd
  | callback (n : Nat)
  | seqBegin (n : Nat)
  | span (n : Nat) (dat : List Nat)
deriving DecidableEq

/-- Modelled from the spec: the capture engine's state across iterations:
`seq` counts the sequences begun so far, `seqOpen` says whether a ring
sequence is currently open, `changes` counts the structural changes the
decoder has detected (the first sequence's start included).
`packet_capture.cpp` is not part of the source tree. -/
structure CaptureState where
  seq : Nat
  seqOpen : Bool
  changes : Nat
deriving DecidableEq

/-- The capture engine before its first packet. -/
def captureInit : CaptureState :=
  ⟨0, false, 0⟩

/-- Modelled from the spec: one iteration of the capture loop, the
`capture_recv` / `bfPacketCaptureRecv` of `packet_capture.h` (§4.5 and the
return-code list of §4.5): a timeout yields `NO_DATA` without closing the
sequence; a cancellation yields `INTERRUPTED`; end of input closes the open
sequence and yields `ENDED`; a fatal error yields `ERROR`; the first packet
batch begins the first sequence (`STARTED`), a batch with a structural
change ends the current sequence, invokes the callback, and begins the next
(`CHANGED`), and any other batch extends the current sequence
(`CONTINUED`).  Returns the new engine state, the iteration's status, and
the ring events performed, in order.  `packet_capture.cpp` is not part of
the source tree. -/
def captureRecv (st : CaptureState) (inp : CaptureInput) :
    CaptureState × BFpacketcapture_status × List CaptureEvent :=
  match inp with
  | .timeout => (st, .BF_CAPTURE_NO_DATA, [])
  | .interrupt => (st, .BF_CAPTURE_INTERRUPTED, [])
  | .fail => (st, .BF_CAPTURE_ERROR, [])
  | .eof =>
    if st.seqOpen then
      ({ st with seqOpen := false }, .BF_CAPTURE_ENDED, [.seqEnd])
    else
      (st, .BF_CAPTURE_ENDED, [])
  | .packets change dat =>
    if st.seq = 0 then
      (⟨1, true, st.changes + 1⟩, .BF_CAPTURE_STARTED,
       [.callback 0, .seqBegin 0, .span 0 dat])
    else if change then
      (⟨st.seq + 1, true, st.changes + 1⟩, .BF_CAPTURE_CHANGED,
       (if st.seqOpen then [.seqEnd] else []) ++
         [.callback st.seq, .seqBegin st.seq, .span st.seq dat])
    else
      (st, .BF_CAPTURE_CONTINUED, [.span (st.seq - 1) dat])

/-- A whole capture run from a given engine state and accumulated event
trace: fold `captureRecv` over the observed inputs, concatenating the
emitted ring events. -/
def captureRunFrom (acc : CaptureState × List CaptureEvent)
    (inps : List CaptureInput) : CaptureState × List CaptureEvent :=
  match inps with
  | [] => acc
  | inp :: rest =>
    let out := captureRecv acc.1 inp
    captureRunFrom (out.1, acc.2 ++ out.2.2) rest

/-- A whole capture run from engine start. -/
def captureRun (inps : List CaptureInput) : CaptureState × List CaptureEvent :=
  captureRunFrom (captureInit, []) inps

/-- The sequence ids whose callback has been invoked in a trace, in
invocation order. -/
def callbacksOf (tr : List CaptureEvent) : List Nat :=
  tr.filterMap (fun e =>
    match e with
    | .callback n => some n
    | _ => none)

/-- `spansCovered seen tr = true` iff every span of a sequence `n` in `tr`
is preceded (in `seen ++ earlier events of tr`) by the callback invocation
for sequence `n`. -/
def spansCovered (seen : List Nat) : List CaptureEvent → Bool
  | [] => true
  | .callback n :: rest => spansCovered (seen ++ [n]) rest
  | .span n _ :: rest => seen.contains n && spansCovered seen rest
  | .seqEnd :: rest => spansCovered seen rest
  | .seqBegin _ :: rest => spansCovered seen rest

/-- The capture-run invariant: the decoder's detected-change count equals the
number of sequences begun, the callback invocations of the trace are exactly
one per begun sequence in order, and every span of the trace is preceded by
the callback of its sequence. -/
def CapInv (st : CaptureState) (tr : List CaptureEvent) : Prop :=
  st.changes = st.seq ∧
  callbacksOf tr = List.range st.seq ∧
  spansCovered [] tr = true

-- Concrete states used to instantiate the proved properties.

/-- A ring of capacity 4 with one guaranteed reader at offset 0 and an
outstanding two-byte reservation. -/
def ringWitnessA : RingState :=
  ⟨4, [], [1, 2], [], [⟨true, 0, 0, []⟩], true⟩

/-- A ring of capacity 8 whose writer committed the span `[5, 6, 7]` and
whose guaranteed reader has acquired all of it. -/
def ringWitnessB : RingState :=
  ⟨8, [5, 6, 7], [], [[5, 6, 7]], [⟨true, 0, 3, [5, 6, 7]⟩], true⟩

/-- A ring of capacity 8 with three committed bytes and a guaranteed reader
still at offset 0. -/
def ringWitnessC : RingState :=
  ⟨8, [5, 6, 7], [], [[5, 6, 7]], [⟨true, 0, 0, []⟩], true⟩

/-- An allocator state holding one system-space allocation at address 1. -/
def memWitness : MemState :=
  (bfMalloc ⟨[]⟩ 1 .BF_SPACE_SYSTEM).2

/-- A concrete float32 system-space input array (scalars embedded as `Int`). -/
def scaleInC : BFarray Int :=
  ⟨some [2, 3], .BF_SPACE_SYSTEM, BF_DTYPE_F32, 1, [2], []⟩

/-- A concrete float32 system-space output array of the same shape. -/
def scaleOutC : BFarray Int :=
  ⟨some [0, 0], .BF_SPACE_SYSTEM, BF_DTYPE_F32, 1, [2], []⟩

/-- A concrete output array whose dtype is not float32 (dtype code 0). -/
def scaleBadC : BFarray Int :=
  ⟨some [0, 0], .BF_SPACE_SYSTEM, 0, 1, [2], []⟩

/-- A concrete three-dimensional array descriptor awaiting allocation. -/
def arrC : BFarray Int :=
  ⟨none, .BF_SPACE_CUDA, BF_DTYPE_F32, 3, [2, 3, 5], []⟩

-- General list helpers used by the invariant proofs.

lemma take_append_left {α : Type} (l1 l2 : List α) (n : Nat) (h : n ≤ l1.length) :
    (l1 ++ l2).take n = l1.take n := by
  rw [List.take_append_eq_append_take, Nat.sub_eq_zero_of_le h]
  simp

lemma drop_append_left {α : Type} (l1 l2 : List α) (n : Nat) (h : n ≤ l1.length) :
    (l1 ++ l2).drop n = l1.drop n ++ l2 := by
  rw [List.drop_append_eq_append_drop, Nat.sub_eq_zero_of_le h]
  simp

lemma take_split {α : Type} (l : List α) (m n : Nat) :
    l.take (m + n) = l.take m ++ (l.drop m).take n := by
  induction l generalizing m with
  | nil => simp
  | cons a t ih =>
    cases m with
    | zero => simp
    | succ k => simp [Nat.succ_add, ih]

-- The allocator invariant and the memory-space properties.

lemma memReach_inv (st : MemState) (h : MemReach st) : MemInv st := by
  induction h with
  | init => intro q hq; simp at hq
  | malloc st p space hs hr ih =>
    intro q hq
    unfold bfMalloc at hs hq
    by_cases hc : space.isConcrete
    · simp [hc] at hq
      rcases hq with hq | hq
      · rw [hq]; exact hc
      · exact ih q hq
    · simp [hc] at hs
  | free st p hr ih =>
    intro q hq
    unfold bfFree at hq
    simp at hq
    exact ih q hq.1

lemma isConcrete_ne_auto (s : BFspace) (h : s.isConcrete = true) :
    s ≠ .BF_SPACE_AUTO := by
  cases s <;> simp_all [BFspace.isConcrete]

/-- C8 counterexample: the claim that the memory-space type consists of
exactly the four spaces system, pinned host, device, and managed device is
false: `BF_SPACE_AUTO` is a fifth value of `BFspace` distinct from all
four. -/
theorem bfspace_four_values_counterexample :
    ¬ (∀ s : BFspace, s = .BF_SPACE_SYSTEM ∨ s = .BF_SPACE_CUDA_HOST ∨
         s = .BF_SPACE_CUDA ∨ s = .BF_SPACE_CUDA_MANAGED) := by
  intro h
  rcases h .BF_SPACE_AUTO with h1 | h1 | h1 | h1 <;> exact BFspace.noConfusion h1

/-- C8 (amended): the memory-space enum has exactly five values, the four
concrete spaces plus the automatic-detection sentinel `BF_SPACE_AUTO`; in
every reachable allocator state the pointer-space query returns only one of
the four concrete spaces, and allocation succeeds only for the four concrete
spaces, rejecting `BF_SPACE_AUTO` with `UNSUPPORTED_SPACE`. -/
theorem bfspace_five_values_concrete_ops (st : MemState) (hst : MemReach st) :
    (∀ s : BFspace, s = .BF_SPACE_AUTO ∨ s = .BF_SPACE_SYSTEM ∨
       s = .BF_SPACE_CUDA ∨ s = .BF_SPACE_CUDA_HOST ∨ s = .BF_SPACE_CUDA_MANAGED) ∧
    (∀ p s, bfGetSpace st p = some s → s ≠ .BF_SPACE_AUTO) ∧
    (∀ st2 p s, (bfMalloc st2 p s).1 = .BF_STATUS_SUCCESS → s ≠ .BF_SPACE_AUTO) ∧
    (∀ st2 p, (bfMalloc st2 p .BF_SPACE_AUTO).1 = .BF_STATUS_UNSUPPORTED_SPACE) := by
  refine ⟨fun s => by cases s <;> simp, ?_, ?_, ?_⟩
  · intro p s hget
    unfold bfGetSpace at hget
    rcases hfind : st.allocs.find? (fun q => q.1 == p) with _ | q
    · rw [hfind] at hget; simp at hget
    · rw [hfind] at hget
      simp at hget
      have hmem := List.mem_of_find?_eq_some hfind
      have := memReach_inv st hst q hmem
      rw [hget] at this
      exact isConcrete_ne_auto s this
  · intro st2 p s hs
    unfold bfMalloc at hs
    by_cases hc : s.isConcrete
    · exact isConcrete_ne_auto s hc
    · simp [hc] at hs
  · intro st2 p
    simp [bfMalloc, BFspace.isConcrete]

/-- Instantiation of the amended C8 property on a concrete allocator run:
one system-space allocation at address 1, queried back. -/
theorem bfspace_five_values_concrete_ops_witness :
    bfGetSpace memWitness 1 = some .BF_SPACE_SYSTEM ∧
    BFspace.BF_SPACE_SYSTEM ≠ .BF_SPACE_AUTO := by
  have hreach : MemReach memWitness :=
    MemReach.malloc ⟨[]⟩ 1 .BF_SPACE_SYSTEM rfl MemReach.init
  exact ⟨rfl, (bfspace_five_values_concrete_ops memWitness hreach).2.1 1 _ rfl⟩

-- Preservation of the ring invariant along every transition.

lemma ringStep_inv (st st' : RingState) (hs : RingStep st st') (hinv : RingInv st) :
    RingInv st' := by
  obtain ⟨hpc, hlog, hrd⟩ := hinv
  cases hs with
  | beginWriting hw => exact ⟨hpc, hlog, hrd⟩
  | endWriting => exact ⟨hpc, hlog, hrd⟩
  | resize c hl hp =>
    refine ⟨by simp [hp], hlog, ?_⟩
    intro r hr
    obtain ⟨h1, h2, h3, h4⟩ := hrd r hr
    refine ⟨h1, h2, h3, fun hg => ?_⟩
    simp [hl, hp]
  | reserve bs hw hok =>
    obtain ⟨hcap, hg⟩ := hok
    refine ⟨by simpa using hcap, hlog, ?_⟩
    intro r hr
    obtain ⟨h1, h2, h3, h4⟩ := hrd r hr
    refine ⟨h1, h2, h3, fun hgr => ?_⟩
    have hb := hg r hr hgr
    simp only [List.length_append]
    omega
  | commit hw =>
    refine ⟨by simp, by simp [hlog], ?_⟩
    intro r hr
    obtain ⟨h1, h2, h3, h4⟩ := hrd r hr
    refine ⟨h1, by simp; omega, ?_, fun hg => ?_⟩
    · have hsc : r.start ≤ st.log.length := le_trans h1 h2
      rw [drop_append_left st.log st.pending r.start hsc,
          take_append_left (st.log.drop r.start) st.pending (r.cursor - r.start)
            (by simp; omega)]
      exact h3
    · have := h4 hg
      simp only [List.length_append, List.length_nil]
      omega
  | openReading g =>
    refine ⟨hpc, hlog, ?_⟩
    intro r hr
    rcases List.mem_append.mp hr with hmem | hnew
    · exact hrd r hmem
    · have hre : r = ⟨g, st.log.length, st.log.length, []⟩ := by simpa using hnew
      subst hre
      refine ⟨le_refl _, le_refl _, by simp, fun hg => by simp; omega⟩
  | acquireRelease i n h hn =>
    refine ⟨hpc, hlog, ?_⟩
    intro r hr
    rcases List.mem_or_eq_of_mem_set hr with hmem | heq
    · exact hrd r hmem
    · subst heq
      obtain ⟨h1, h2, h3, h4⟩ := hrd (st.readers.get ⟨i, h⟩) (st.readers.get_mem i h)
      refine ⟨le_trans h1 (Nat.le_add_right _ n), hn, ?_, fun hg => ?_⟩
      · show (st.readers.get ⟨i, h⟩).acquired ++
            (st.log.drop (st.readers.get ⟨i, h⟩).cursor).take n =
            (st.log.drop (st.readers.get ⟨i, h⟩).start).take
              ((st.readers.get ⟨i, h⟩).cursor + n - (st.readers.get ⟨i, h⟩).start)
        rw [h3]
        have he : (st.readers.get ⟨i, h⟩).cursor + n - (st.readers.get ⟨i, h⟩).start =
            ((st.readers.get ⟨i, h⟩).cursor - (st.readers.get ⟨i, h⟩).start) + n := by
          omega
        rw [he, take_split, List.drop_drop]
        have hc : (st.readers.get ⟨i, h⟩).start +
            ((st.readers.get ⟨i, h⟩).cursor - (st.readers.get ⟨i, h⟩).start) =
            (st.readers.get ⟨i, h⟩).cursor := by
          omega
        rw [hc]
      · have hb := h4 hg
        show st.log.length + st.pending.length ≤
            (st.readers.get ⟨i, h⟩).cursor + n + st.capacity
        omega

lemma ringReach_inv (st : RingState) (h : RingReach st) : RingInv st := by
  induction h with
  | init cap =>
    refine ⟨by simp [ringInit], by simp [ringInit], ?_⟩
    intro r hr
    simp [ringInit] at hr
  | step st st' hr hs ih => exact ringStep_inv st st' hs ih

/-- C1: in every reachable ring state, the writer's reservation cursor (and
a fortiori its commit cursor) is within `capacity` bytes of every guaranteed
reader's cursor, and a `reserve(n)` completes only under the guard that
keeps the bound true after it — a reservation that would violate the bound
is not enabled, i.e. the writer blocks instead of completing it. -/
theorem ring_reserve_backpressure (st : RingState) (hst : RingReach st) :
    (∀ r ∈ st.readers, r.guaranteed = true →
       st.reserveHead ≤ r.cursor + st.capacity ∧
       st.commitHead ≤ r.cursor + st.capacity) ∧
    (∀ n, reserveOk st n → ∀ r ∈ st.readers, r.guaranteed = true →
       st.reserveHead + n ≤ r.cursor + st.capacity) := by
  obtain ⟨hpc, hlog, hrd⟩ := ringReach_inv st hst
  constructor
  · intro r hr hg
    have hb := (hrd r hr).2.2.2 hg
    unfold RingState.reserveHead RingState.commitHead
    omega
  · intro n hok r hr hg
    have hb := hok.2 r hr hg
    unfold RingState.reserveHead
    omega

/-- Instantiation of the C1 bound on a concrete reachable ring: capacity 4,
one guaranteed reader at offset 0, two bytes reserved. -/
theorem ring_reserve_backpressure_witness :
    ringWitnessA.reserveHead ≤
      (RingReader.mk true 0 0 []).cursor + ringWitnessA.capacity ∧
    ringWitnessA.commitHead ≤
      (RingReader.mk true 0 0 []).cursor + ringWitnessA.capacity := by
  have h0 : RingReach (⟨4, [], [], [], [], false⟩ : RingState) := RingReach.init 4
  have h1 : RingReach (⟨4, [], [], [], [⟨true, 0, 0, []⟩], false⟩ : RingState) :=
    RingReach.step _ _ h0 (RingStep.openReading _ true)
  have h2 : RingReach (⟨4, [], [], [], [⟨true, 0, 0, []⟩], true⟩ : RingState) :=
    RingReach.step _ _ h1 (RingStep.beginWriting _ rfl)
  have h3 : RingReach ringWitnessA :=
    RingReach.step _ _ h2 (RingStep.reserve _ [1, 2] rfl (by decide))
  exact (ring_reserve_backpressure ringWitnessA h3).1 ⟨true, 0, 0, []⟩ (by decide) rfl

/-- C2: in every reachable ring state, a guaranteed reader that joined at
offset 0 and has consumed up to the commit cursor has acquired exactly the
concatenation of the writer's committed spans, in commit order — no bytes
dropped, duplicated, or reordered; reading a whole written stream back
yields bit-identical bytes. -/
theorem ring_guaranteed_fifo (st : RingState) (hst : RingReach st) :
    ∀ r ∈ st.readers, r.start = 0 → r.cursor = st.commitHead →
      r.acquired = st.commits.flatten ∧ r.acquired = st.log := by
  obtain ⟨hpc, hlog, hrd⟩ := ringReach_inv st hst
  intro r hr hs hc
  obtain ⟨h1, h2, h3, h4⟩ := hrd r hr
  have hacq : r.acquired = st.log := by
    rw [h3, hs, hc]
    unfold RingState.commitHead
    simp
  exact ⟨by rw [hacq, hlog], hacq⟩

/-- Instantiation of the C2 round trip on a concrete reachable ring: the
writer reserves and commits `[5, 6, 7]`, the guaranteed reader acquires all
three bytes and its acquired history equals the committed concatenation. -/
theorem ring_guaranteed_fifo_witness :
    (RingReader.mk true 0 3 [5, 6, 7]).acquired = ringWitnessB.commits.flatten ∧
    (RingReader.mk true 0 3 [5, 6, 7]).acquired = ringWitnessB.log := by
  have h0 : RingReach (⟨8, [], [], [], [], false⟩ : RingState) := RingReach.init 8
  have h1 : RingReach (⟨8, [], [], [], [⟨true, 0, 0, []⟩], false⟩ : RingState) :=
    RingReach.step _ _ h0 (RingStep.openReading _ true)
  have h2 : RingReach (⟨8, [], [], [], [⟨true, 0, 0, []⟩], true⟩ : RingState) :=
    RingReach.step _ _ h1 (RingStep.beginWriting _ rfl)
  have h3 : RingReach (⟨8, [], [5, 6, 7], [], [⟨true, 0, 0, []⟩], true⟩ : RingState) :=
    RingReach.step _ _ h2 (RingStep.reserve _ [5, 6, 7] rfl (by decide))
  have h4 : RingReach (⟨8, [5, 6, 7], [], [[5, 6, 7]], [⟨true, 0, 0, []⟩], true⟩ : RingState) :=
    RingReach.step _ _ h3 (RingStep.commit _ rfl)
  have h5 : RingReach ringWitnessB :=
    RingReach.step _ _ h4 (RingStep.acquireRelease _ 0 3 (by decide) (by decide))
  exact ring_guaranteed_fifo ringWitnessB h5 ⟨true, 0, 3, [5, 6, 7]⟩ (by decide) rfl rfl

/-- C5: `ring_resize` succeeds only when the ring is empty / has never been
written (and then preserves the (empty) contents, readers and cursors,
changing only the capacity); on a non-empty ring open for writing it fails
with `INVALID_STATE` and leaves capacity, contents, and cursors unchanged.
The tutorial's `CopyOp.main` calls `resize` inside its writing loop; under
the spec's stated contract those calls are only data-safe because the rings
there are sized before data lands, which is the under-specification the
claim notes. -/
theorem ring_resize_rejects_nonempty (st : RingState) (c : Nat) :
    (st.writing = true → st.log ≠ [] →
       ringResize st c = (.BF_STATUS_INVALID_STATE, st)) ∧
    (st.log ≠ [] → ringResize st c = (.BF_STATUS_INVALID_STATE, st)) ∧
    ((ringResize st c).1 = .BF_STATUS_SUCCESS → st.log = []) ∧
    (st.log = [] → ringResize st c = (.BF_STATUS_SUCCESS, { st with capacity := c })) ∧
    ((ringResize st c).2.log = st.log ∧ (ringResize st c).2.pending = st.pending ∧
     (ringResize st c).2.readers = st.readers) := by
  by_cases hl : st.log.isEmpty
  · have hnil : st.log = [] := by simpa using hl
    refine ⟨fun _ hne => absurd hnil hne, fun hne => absurd hnil hne, ?_, ?_, ?_⟩
    · intro _; exact hnil
    · intro _; simp [ringResize, hl]
    · simp [ringResize, hl]
  · have hne : st.log ≠ [] := by simpa using hl
    refine ⟨fun _ _ => ?_, fun _ => ?_, ?_, fun hnil => absurd hnil hne, ?_⟩
    · simp [ringResize, hl]
    · simp [ringResize, hl]
    · intro hs
      simp [ringResize, hl] at hs
    · simp [ringResize, hl]

/-- Instantiation of C5 on a concrete non-empty writing ring: resizing the
committed ring to 16 bytes fails with `INVALID_STATE` and returns the state
unchanged. -/
theorem ring_resize_rejects_nonempty_witness :
    ringResize ringWitnessB 16 = (.BF_STATUS_INVALID_STATE, ringWitnessB) :=
  (ring_resize_rejects_nonempty ringWitnessB 16).1 rfl (by decide)

/-- C6: the writer token is exclusive: `open_writing` on a ring that is not
open for writing succeeds and makes it writable, and a second `open_writing`
while the first is still open returns `INVALID_STATE` and leaves the state
unchanged — on any ring already open for writing, `open_writing` fails. -/
theorem ring_begin_writing_exclusive (st : RingState) (h : st.writing = false) :
    ringBeginWriting st = (.BF_STATUS_SUCCESS, { st with writing := true }) ∧
    ringBeginWriting { st with writing := true } =
      (.BF_STATUS_INVALID_STATE, { st with writing := true }) ∧
    (∀ st2 : RingState, st2.writing = true →
       ringBeginWriting st2 = (.BF_STATUS_INVALID_STATE, st2)) := by
  refine ⟨by simp [ringBeginWriting, h], by simp [ringBeginWriting], ?_⟩
  intro st2 h2
  simp [ringBeginWriting, h2]

/-- Instantiation of C6 on a fresh ring of capacity 4: the first
`open_writing` succeeds, the second fails with `INVALID_STATE`. -/
theorem ring_begin_writing_exclusive_witness :
    ringBeginWriting (ringInit 4) =
      (.BF_STATUS_SUCCESS, { ringInit 4 with writing := true }) ∧
    ringBeginWriting { ringInit 4 with writing := true } =
      (.BF_STATUS_INVALID_STATE, { ringInit 4 with writing := true }) := by
  have h := ring_begin_writing_exclusive (ringInit 4) rfl
  exact ⟨h.1, h.2.1⟩

-- Trace bookkeeping lemmas for the capture run.

lemma callbacksOf_append (t1 t2 : List CaptureEvent) :
    callbacksOf (t1 ++ t2) = callbacksOf t1 ++ callbacksOf t2 := by
  unfold callbacksOf
  simp

lemma spansCovered_append : ∀ (seen : List Nat) (t1 t2 : List CaptureEvent),
    spansCovered seen (t1 ++ t2) =
      (spansCovered seen t1 && spansCovered (seen ++ callbacksOf t1) t2)
  | seen, [], t2 => by simp [spansCovered, callbacksOf]
  | seen, .callback n :: rest, t2 => by
    have ih := spansCovered_append (seen ++ [n]) rest t2
    simp [spansCovered, callbacksOf] at ih ⊢
    rw [ih]
  | seen, .span n d :: rest, t2 => by
    have ih := spansCovered_append seen rest t2
    simp [spansCovered, callbacksOf] at ih ⊢
    rw [ih]
    simp [Bool.and_assoc]
  | seen, .seqEnd :: rest, t2 => by
    have ih := spansCovered_append seen rest t2
    simp [spansCovered, callbacksOf] at ih ⊢
    rw [ih]
  | seen, .seqBegin m :: rest, t2 => by
    have ih := spansCovered_append seen rest t2
    simp [spansCovered, callbacksOf] at ih ⊢
    rw [ih]

lemma callbacksOf_nil : callbacksOf [] = [] := rfl

lemma callbacksOf_callback (n : Nat) (rest : List CaptureEvent) :
    callbacksOf (.callback n :: rest) = n :: callbacksOf rest := rfl

lemma callbacksOf_seqEnd (rest : List CaptureEvent) :
    callbacksOf (.seqEnd :: rest) = callbacksOf rest := rfl

lemma callbacksOf_seqBegin (m : Nat) (rest : List CaptureEvent) :
    callbacksOf (.seqBegin m :: rest) = callbacksOf rest := rfl

lemma callbacksOf_span (m : Nat) (d : List Nat) (rest : List CaptureEvent) :
    callbacksOf (.span m d :: rest) = callbacksOf rest := rfl

lemma capInv_step (st : CaptureState) (tr : List CaptureEvent) (inp : CaptureInput)
    (h : CapInv st tr) :
    CapInv (captureRecv st inp).1 (tr ++ (captureRecv st inp).2.2) := by
  obtain ⟨hc, hcb, hsp⟩ := h
  cases inp with
  | timeout =>
    exact ⟨hc, by simp [captureRecv, callbacksOf_append, callbacksOf_nil, hcb],
           by simpa [captureRecv] using hsp⟩
  | interrupt =>
    exact ⟨hc, by simp [captureRecv, callbacksOf_append, callbacksOf_nil, hcb],
           by simpa [captureRecv] using hsp⟩
  | fail =>
    exact ⟨hc, by simp [captureRecv, callbacksOf_append, callbacksOf_nil, hcb],
           by simpa [captureRecv] using hsp⟩
  | eof =>
    by_cases ho : st.seqOpen
    · refine ⟨by simp [captureRecv, ho, hc], ?_, ?_⟩
      · simp [captureRecv, ho, callbacksOf_append, callbacksOf_seqEnd,
              callbacksOf_nil, hcb]
      · simp [captureRecv, ho, spansCovered_append, hsp, spansCovered]
    · refine ⟨by simp [captureRecv, ho, hc], ?_, ?_⟩
      · simp [captureRecv, ho, callbacksOf_append, callbacksOf_nil, hcb]
      · simp [captureRecv, ho, spansCovered_append, hsp, spansCovered]
  | packets chg dat =>
    by_cases h0 : st.seq = 0
    · refine ⟨?_, ?_, ?_⟩
      · simp [captureRecv, h0]
        omega
      · have hcb0 : callbacksOf tr = [] := by rw [hcb, h0]; rfl
        simp [captureRecv, h0, callbacksOf_append, hcb0, callbacksOf_callback,
              callbacksOf_seqBegin, callbacksOf_span, callbacksOf_nil]
        decide
      · have hcb0 : callbacksOf tr = [] := by rw [hcb, h0]; rfl
        simp [captureRecv, h0, spansCovered_append, hsp, hcb0, spansCovered]
    · by_cases hchg : chg
      · have hcbnew : callbacksOf ((if st.seqOpen then [CaptureEvent.seqEnd] else []) ++
            [CaptureEvent.callback st.seq, CaptureEvent.seqBegin st.seq,
             CaptureEvent.span st.seq dat]) = [st.seq] := by
          by_cases ho : st.seqOpen <;>
            simp [ho, callbacksOf_append, callbacksOf_seqEnd, callbacksOf_callback,
                  callbacksOf_seqBegin, callbacksOf_span, callbacksOf_nil]
        have hspnew : spansCovered (List.range st.seq)
            ((if st.seqOpen then [CaptureEvent.seqEnd] else []) ++
             [CaptureEvent.callback st.seq, CaptureEvent.seqBegin st.seq,
              CaptureEvent.span st.seq dat]) = true := by
          have hmem : (List.range st.seq ++ [st.seq]).contains st.seq = true :=
            List.elem_eq_true_of_mem (by simp)
          by_cases ho : st.seqOpen <;>
            simp [ho, spansCovered_append, spansCovered, hmem]
        refine ⟨?_, ?_, ?_⟩
        · simp [captureRecv, h0, hchg]
          omega
        · simp [captureRecv, h0, hchg, callbacksOf_append, hcb, hcbnew,
                List.range_succ]
        · simp [captureRecv, h0, hchg, spansCovered_append, hsp, hcb, hspnew]
      · have hmem : (List.range st.seq).contains (st.seq - 1) = true :=
          List.elem_eq_true_of_mem (by simp [List.mem_range]; omega)
        refine ⟨by simp [captureRecv, h0, hchg, hc], ?_, ?_⟩
        · simp [captureRecv, h0, hchg, callbacksOf_append, callbacksOf_span,
                callbacksOf_nil, hcb]
        · simp [captureRecv, h0, hchg, spansCovered_append, hsp, hcb,
                spansCovered, hmem]
          omega

lemma capInv_run : ∀ (inps : List CaptureInput) (st : CaptureState)
    (tr : List CaptureEvent), CapInv st tr →
    CapInv (captureRunFrom (st, tr) inps).1 (captureRunFrom (st, tr) inps).2
  | [], st, tr, h => by simpa [captureRunFrom] using h
  | inp :: rest, st, tr, h => by
    have hstep := capInv_step st tr inp h
    have hrest := capInv_run rest (captureRecv st inp).1
      (tr ++ (captureRecv st inp).2.2) hstep
    simpa [captureRunFrom] using hrest

/-- C3: every iteration of the capture loop yields a status that is one of
the seven values of `BFpacketcapture_status` declared in `packet_capture.h`
— `STARTED`, `CONTINUED`, `CHANGED`, `ENDED`, `NO_DATA`, `INTERRUPTED`,
`ERROR` — and no other status value exists or is ever produced. -/
theorem capture_recv_status_in_enum (st : CaptureState) (inp : CaptureInput) :
    (captureRecv st inp).2.1 = .BF_CAPTURE_STARTED ∨
    (captureRecv st inp).2.1 = .BF_CAPTURE_CONTINUED ∨
    (captureRecv st inp).2.1 = .BF_CAPTURE_CHANGED ∨
    (captureRecv st inp).2.1 = .BF_CAPTURE_ENDED ∨
    (captureRecv st inp).2.1 = .BF_CAPTURE_NO_DATA ∨
    (captureRecv st inp).2.1 = .BF_CAPTURE_INTERRUPTED ∨
    (captureRecv st inp).2.1 = .BF_CAPTURE_ERROR := by
  generalize (captureRecv st inp).2.1 = s
  cases s <;> simp

/-- C4: over every capture run, the sequence-change callback is invoked
exactly once per structural change the decoder detects (the callbacks of the
trace are exactly one per change, in order), and every span committed to the
ring is preceded in the trace by the callback invocation of its sequence —
the callback runs before any span of the new sequence becomes visible to
readers. -/
theorem capture_callback_once_before_spans (inps : List CaptureInput) :
    callbacksOf (captureRun inps).2 = List.range (captureRun inps).1.changes ∧
    (captureRun inps).1.changes = (captureRun inps).1.seq ∧
    spansCovered [] (captureRun inps).2 = true := by
  unfold captureRun
  have h := capInv_run inps captureInit [] ⟨rfl, rfl, rfl⟩
  obtain ⟨hc, hcb, hsp⟩ := h
  refine ⟨?_, hc, hsp⟩
  rw [hcb, hc]

/-- C7: a capture-loop iteration that observes a receive timeout returns the
`NO_DATA` status, leaves the engine state (in particular the open sequence)
unchanged and performs no ring events; and the non-blocking ring acquire
returns `WOULD_BLOCK` with no data when the requested bytes are not yet
committed, and otherwise exactly the `n` requested bytes — never partial
data. -/
theorem capture_timeout_no_data :
    (∀ st : CaptureState,
       captureRecv st .timeout = (st, .BF_CAPTURE_NO_DATA, [])) ∧
    (∀ (st : RingState) (i n : Nat) (r : RingReader),
       st.readers.get? i = some r → r.cursor + n ≤ st.log.length →
       read_span_acquire st i n = .ok ((st.log.drop r.cursor).take n) ∧
       ((st.log.drop r.cursor).take n).length = n) ∧
    (∀ (st : RingState) (i n : Nat) (r : RingReader),
       st.readers.get? i = some r → st.log.length < r.cursor + n →
       read_span_acquire st i n = .error .BF_STATUS_WOULD_BLOCK) := by
  refine ⟨fun st => rfl, ?_, ?_⟩
  · intro st i n r hget hle
    refine ⟨?_, ?_⟩
    · unfold read_span_acquire
      rw [hget]
      simp [hle]
    · simp
      omega
  · intro st i n r hget hgt
    unfold read_span_acquire
    rw [hget]
    have hnot : ¬ (r.cursor + n ≤ st.log.length) := by omega
    simp [hnot]

/-- Instantiation of C7 on concrete states: a timeout iteration on the
fresh engine, a satisfied three-byte acquire, and a four-byte acquire that
would block on a ring holding three committed bytes. -/
theorem capture_timeout_no_data_witness :
    captureRecv captureInit .timeout = (captureInit, .BF_CAPTURE_NO_DATA, []) ∧
    read_span_acquire ringWitnessC 0 3 = .ok [5, 6, 7] ∧
    read_span_acquire ringWitnessC 0 4 = .error .BF_STATUS_WOULD_BLOCK := by
  refine ⟨capture_timeout_no_data.1 captureInit, ?_, ?_⟩
  · exact (capture_timeout_no_data.2.1 ringWitnessC 0 3 ⟨true, 0, 0, []⟩
      rfl (by decide)).1
  · exact capture_timeout_no_data.2.2 ringWitnessC 0 4 ⟨true, 0, 0, []⟩
      rfl (by decide)

/-- C9: `bfScale` on two non-null, dense float32 system-space arrays of equal
ndim and shape returns `SUCCESS` with every output element equal to the
corresponding input element times the scale; a non-float32 dtype yields
`UNSUPPORTED_DTYPE`, then a non-system space yields `UNSUPPORTED_SPACE`,
then a ndim or shape mismatch yields `INVALID_SHAPE`, and in each error case
the output array (its data included) is returned unmodified. -/
theorem bfScale_spec {F : Type} (fmul : F → F → F) (scale : F) :
    (∀ (inp out : BFarray F) (din dout : List F),
       inp.data = some din → out.data = some dout →
       inp.dtype = BF_DTYPE_F32 → out.dtype = BF_DTYPE_F32 →
       inp.space = .BF_SPACE_SYSTEM → out.space = .BF_SPACE_SYSTEM →
       inp.ndim = out.ndim → inp.shape = out.shape →
       din.length = (get_total_elements inp).toNat →
       dout.length = din.length →
       bfScale fmul inp out scale =
         (.BF_STATUS_SUCCESS,
          { out with data := some (din.map (fun x => fmul x scale)) })) ∧
    (∀ inp out : BFarray F,
       inp.data ≠ none → out.data ≠ none →
       (inp.dtype ≠ BF_DTYPE_F32 ∨ out.dtype ≠ BF_DTYPE_F32) →
       bfScale fmul inp out scale = (.BF_STATUS_UNSUPPORTED_DTYPE, out)) ∧
    (∀ inp out : BFarray F,
       inp.data ≠ none → out.data ≠ none →
       inp.dtype = BF_DTYPE_F32 → out.dtype = BF_DTYPE_F32 →
       (inp.space ≠ .BF_SPACE_SYSTEM ∨ out.space ≠ .BF_SPACE_SYSTEM) →
       bfScale fmul inp out scale = (.BF_STATUS_UNSUPPORTED_SPACE, out)) ∧
    (∀ inp out : BFarray F,
       inp.data ≠ none → out.data ≠ none →
       inp.dtype = BF_DTYPE_F32 → out.dtype = BF_DTYPE_F32 →
       inp.space = .BF_SPACE_SYSTEM → out.space = .BF_SPACE_SYSTEM →
       inp.ndim ≠ out.ndim →
       bfScale fmul inp out scale = (.BF_STATUS_INVALID_SHAPE, out)) ∧
    (∀ inp out : BFarray F,
       inp.data ≠ none → out.data ≠ none →
       inp.dtype = BF_DTYPE_F32 → out.dtype = BF_DTYPE_F32 →
       inp.space = .BF_SPACE_SYSTEM → out.space = .BF_SPACE_SYSTEM →
       inp.ndim = out.ndim → shapesMatch inp out = false →
       bfScale fmul inp out scale = (.BF_STATUS_INVALID_SHAPE, out)) := by
  refine ⟨?_, ?_, ?_, ?_, ?_⟩
  · intro inp out din dout hdin hdout hdt1 hdt2 hsp1 hsp2 hnd hsh hlen1 hlen2
    have hmatch : shapesMatch inp out = true := by
      unfold shapesMatch
      rw [hsh]
      simp
    have hdrop : dout.drop din.length = [] := by
      rw [← hlen2]
      exact List.drop_length dout
    unfold bfScale
    rw [hdin, hdout, ← hlen1]
    simp [hdt1, hdt2, hsp1, hsp2, hnd, hmatch, hdrop]
  · intro inp out hdin hdout hbad
    rcases hdne : inp.data with _ | din
    · exact absurd hdne hdin
    rcases hdne2 : out.data with _ | dout
    · exact absurd hdne2 hdout
    unfold bfScale
    rw [hdne, hdne2]
    have : (inp.dtype ≠ BF_DTYPE_F32 ∨ out.dtype ≠ BF_DTYPE_F32) = True := by
      simp [hbad]
    simp only [this, if_true]
  · intro inp out hdin hdout hdt1 hdt2 hbad
    rcases hdne : inp.data with _ | din
    · exact absurd hdne hdin
    rcases hdne2 : out.data with _ | dout
    · exact absurd hdne2 hdout
    unfold bfScale
    rw [hdne, hdne2]
    simp [hdt1, hdt2, hbad]
  · intro inp out hdin hdout hdt1 hdt2 hsp1 hsp2 hbad
    rcases hdne : inp.data with _ | din
    · exact absurd hdne hdin
    rcases hdne2 : out.data with _ | dout
    · exact absurd hdne2 hdout
    unfold bfScale
    rw [hdne, hdne2]
    simp [hdt1, hdt2, hsp1, hsp2, hbad]
  · intro inp out hdin hdout hdt1 hdt2 hsp1 hsp2 hnd hmatch
    rcases hdne : inp.data with _ | din
    · exact absurd hdne hdin
    rcases hdne2 : out.data with _ | dout
    · exact absurd hdne2 hdout
    unfold bfScale
    rw [hdne, hdne2]
    simp [hdt1, hdt2, hsp1, hsp2, hnd, hmatch]

/-- Instantiation of C9 on concrete arrays: scaling `[2, 3]` by 5 over `Int`
multiplication yields `[10, 15]` with `SUCCESS`, and a dtype mismatch
returns `UNSUPPORTED_DTYPE` with the output untouched. -/
theorem bfScale_spec_witness :
    bfScale (fun a b => a * b) scaleInC scaleOutC 5 =
      (.BF_STATUS_SUCCESS,
       { scaleOutC with data := some ([2, 3].map (fun x => x * 5)) }) ∧
    bfScale (fun a b => a * b) scaleInC scaleBadC 5 =
      (.BF_STATUS_UNSUPPORTED_DTYPE, scaleBadC) := by
  constructor
  · exact (bfScale_spec (fun a b => a * b) 5).1 scaleInC scaleOutC [2, 3] [0, 0]
      rfl rfl rfl rfl rfl rfl rfl rfl (by decide) (by decide)
  · exact (bfScale_spec (fun a b => a * b) 5).2.1 scaleInC scaleBadC
      (by decide) (by decide) (by decide)

-- Structure of the row-major strides computed by the bfArrayMalloc loop.

lemma headD_eq_getD_zero {α : Type} (l : List α) (d : α) : l.headD d = l.getD 0 d := by
  cases l <;> rfl

lemma rowMajorStrides_length (nbyte : Int) :
    ∀ l : List Int, (rowMajorStrides nbyte l).length = l.length
  | [] => by simp [rowMajorStrides]
  | [s] => by simp [rowMajorStrides]
  | s1 :: s2 :: rest => by
    have ih := rowMajorStrides_length nbyte (s2 :: rest)
    simp [rowMajorStrides, ih]

lemma rowMajorStrides_getLast (nbyte : Int) :
    ∀ l : List Int, l ≠ [] → (rowMajorStrides nbyte l).getLast? = some nbyte
  | [], h => absurd rfl h
  | [_], _ => rfl
  | s1 :: s2 :: rest, _ => by
    have ih := rowMajorStrides_getLast nbyte (s2 :: rest) (by simp)
    have hcons : rowMajorStrides nbyte (s1 :: s2 :: rest) =
        ((rowMajorStrides nbyte (s2 :: rest)).headD 0 * s2) ::
          rowMajorStrides nbyte (s2 :: rest) := rfl
    rw [hcons]
    rcases hr : rowMajorStrides nbyte (s2 :: rest) with _ | ⟨y, ys⟩
    · have hl := rowMajorStrides_length nbyte (s2 :: rest)
      rw [hr] at hl
      simp at hl
    · rw [hr] at ih
      rw [List.getLast?_cons_cons]
      exact ih

lemma rowMajorStrides_rel (nbyte : Int) :
    ∀ (l : List Int) (d : Nat), d + 1 < l.length →
      (rowMajorStrides nbyte l).getD d 0 =
        (rowMajorStrides nbyte l).getD (d + 1) 0 * l.getD (d + 1) 0
  | [], d, h => by simp at h
  | [s], d, h => by simp at h
  | s1 :: s2 :: rest, d, h => by
    have hcons : rowMajorStrides nbyte (s1 :: s2 :: rest) =
        ((rowMajorStrides nbyte (s2 :: rest)).headD 0 * s2) ::
          rowMajorStrides nbyte (s2 :: rest) := rfl
    cases d with
    | zero =>
      rw [hcons]
      rcases hr : rowMajorStrides nbyte (s2 :: rest) with _ | ⟨y, ys⟩
      · have hl := rowMajorStrides_length nbyte (s2 :: rest)
        rw [hr] at hl
        simp at hl
      · simp [hr]
    | succ k =>
      have hk : k + 1 < (s2 :: rest).length := by
        simp at h ⊢
        omega
      have ih := rowMajorStrides_rel nbyte (s2 :: rest) k hk
      rw [hcons]
      simpa [List.getD_cons_succ] using ih

lemma rowMajorStrides_headD (nbyte : Int) :
    ∀ l : List Int, l ≠ [] →
      (rowMajorStrides nbyte l).headD 0 * l.headD 0 = nbyte * listProd l
  | [], h => absurd rfl h
  | [s], _ => by
    show nbyte * s = nbyte * (s * 1)
    ring
  | s1 :: s2 :: rest, _ => by
    have ih := rowMajorStrides_headD nbyte (s2 :: rest) (by simp)
    have hs2 : (s2 :: rest).headD 0 = s2 := rfl
    rw [hs2] at ih
    show ((rowMajorStrides nbyte (s2 :: rest)).headD 0 * s2) * s1 =
        nbyte * listProd (s1 :: s2 :: rest)
    rw [ih]
    show nbyte * listProd (s2 :: rest) * s1 = nbyte * (s1 * listProd (s2 :: rest))
    ring

/-- C10: for an array descriptor with `ndim ≥ 1` and a shape of that length,
`bfArrayMalloc` fills in dense row-major strides — the innermost stride is
the dtype's byte size, `strides[d] = strides[d+1] * shape[d+1]` for every
`d < ndim-1` — and requests exactly `strides[0] * shape[0]` bytes in the
array's space, which equals the byte size times the product of all shape
entries: a dense layout with no padding. -/
theorem bfarray_malloc_dense_strides {F : Type} (nbyte : Int) (a : BFarray F)
    (h1 : 1 ≤ a.ndim) (h2 : a.shape.length = a.ndim) :
    (bfArrayMalloc nbyte a).1.strides.length = a.ndim ∧
    (bfArrayMalloc nbyte a).1.strides.getLast? = some nbyte ∧
    (∀ d, d + 1 < a.ndim →
       (bfArrayMalloc nbyte a).1.strides.getD d 0 =
         (bfArrayMalloc nbyte a).1.strides.getD (d + 1) 0 * a.shape.getD (d + 1) 0) ∧
    (bfArrayMalloc nbyte a).2.1 =
      (bfArrayMalloc nbyte a).1.strides.getD 0 0 * a.shape.getD 0 0 ∧
    (bfArrayMalloc nbyte a).2.2 = a.space ∧
    (bfArrayMalloc nbyte a).2.1 = nbyte * listProd a.shape := by
  have htake : a.shape.take a.ndim = a.shape := by
    rw [← h2]
    exact List.take_length a.shape
  have hne : a.shape ≠ [] := by
    intro hnil
    rw [hnil] at h2
    simp at h2
    omega
  have hstr : (bfArrayMalloc nbyte a).1.strides = rowMajorStrides nbyte a.shape := by
    simp [bfArrayMalloc, htake]
  have hsz : (bfArrayMalloc nbyte a).2.1 =
      (rowMajorStrides nbyte a.shape).headD 0 * a.shape.headD 0 := by
    simp [bfArrayMalloc, htake]
  refine ⟨?_, ?_, ?_, ?_, ?_, ?_⟩
  · rw [hstr, rowMajorStrides_length nbyte a.shape, h2]
  · rw [hstr]
    exact rowMajorStrides_getLast nbyte a.shape hne
  · intro d hd
    rw [hstr]
    exact rowMajorStrides_rel nbyte a.shape d (by omega)
  · rw [hsz, hstr, headD_eq_getD_zero, headD_eq_getD_zero]
  · simp [bfArrayMalloc]
  · rw [hsz]
    exact rowMajorStrides_headD nbyte a.shape hne

/-- Instantiation of C10 on a concrete 3-dimensional shape `[2, 3, 5]` with a
4-byte dtype: strides `[60, 20, 4]`, 120 bytes requested in the array's
space. -/
theorem bfarray_malloc_dense_strides_witness :
    (bfArrayMalloc 4 arrC).1.strides.length = 3 ∧
    (bfArrayMalloc 4 arrC).1.strides.getLast? = some 4 ∧
    (bfArrayMalloc 4 arrC).1.strides.getD 0 0 =
      (bfArrayMalloc 4 arrC).1.strides.getD 1 0 * arrC.shape.getD 1 0 ∧
    (bfArrayMalloc 4 arrC).2.2 = arrC.space ∧
    (bfArrayMalloc 4 arrC).2.1 = 4 * listProd [2, 3, 5] := by
  have h := bfarray_malloc_dense_strides 4 arrC (by decide) (by decide)
  exact ⟨h.1, h.2.1, h.2.2.1 0 (by decide), h.2.2.2.2.1, h.2.2.2.2.2⟩
